import Mathlib

/-!
Shallow embedding of the Yahoo-Finance-Trader-Sim core: the order model
(src/execution/order.py), the portfolio ledger (src/portfolio/portfolio.py),
the backtest engine loop (src/engine/backtest.py) and the performance
metrics (src/analysis/metrics.py).

Modelling conventions:
- Python floats are modelled as rationals (ℚ); the IEEE value NaN, which the
  pandas code can produce and propagate, is modelled by `Option` (`none` =
  NaN), and real-valued expressions that involve a square root live in ℝ.
- Python ints are ℤ, timestamps are ℕ.
- Python dicts (insertion-ordered) are association lists `List (String × α)`
  with lookup / set / erase helpers mirroring dict indexing, assignment and
  `del`; iteration order is the list order, as in Python.
- Exceptions (`raise ValueError`) are `Except String`.
-/

namespace TraderSim

/-- Order types of the execution system (enum OrderType). -/
inductive OrderType where
  | market
  | limit
  | stop
  | stop_limit
deriving DecidableEq, Repr

/-- Order side (enum OrderSide). -/
inductive OrderSide where
  | buy
  | sell
deriving DecidableEq, Repr

/-- Order status (enum OrderStatus). -/
inductive OrderStatus where
  | pending
  | filled
  | partially_filled
  | cancelled
  | rejected
deriving DecidableEq, Repr

/-- The Order dataclass (fields and defaults as in src/execution/order.py). -/
structure Order where
  symbol : String
  order_type : OrderType
  side : OrderSide
  quantity : ℤ
  timestamp : ℕ
  limit_price : Option ℚ := none
  stop_price : Option ℚ := none
  status : OrderStatus := .pending
  filled_quantity : ℤ := 0
  fill_price : Option ℚ := none
  fill_timestamp : Option ℕ := none
  order_id : Option String := none
deriving DecidableEq, Repr

/-- Validation performed by `Order.__post_init__`: building an order either
raises ValueError (modelled as `.error` with the exact message) or returns
the validated order. -/
def mkOrder (symbol : String) (order_type : OrderType) (side : OrderSide)
    (quantity : ℤ) (timestamp : ℕ) (limit_price stop_price : Option ℚ) :
    Except String Order :=
  if quantity ≤ 0 then
    .error "Order quantity must be positive"
  else if order_type = .limit ∧ limit_price = none then
    .error "Limit orders require a limit price"
  else if order_type = .stop ∧ stop_price = none then
    .error "Stop orders require a stop price"
  else if order_type = .stop_limit ∧ (limit_price = none ∨ stop_price = none) then
    .error "Stop-limit orders require both limit and stop prices"
  else
    .ok { symbol := symbol, order_type := order_type, side := side,
          quantity := quantity, timestamp := timestamp,
          limit_price := limit_price, stop_price := stop_price }

/-- The Fill dataclass. -/
structure Fill where
  order_id : String
  symbol : String
  side : OrderSide
  quantity : ℤ
  price : ℚ
  timestamp : ℕ
  commission : ℚ
deriving DecidableEq, Repr

/-- OrderExecutor state: commission rate and the running order-id counter. -/
structure OrderExecutor where
  commission_rate : ℚ
  next_order_id : ℕ
deriving DecidableEq, Repr

/-- OrderExecutor.execute_market_order: always fills the full quantity at
`current_price`; assigns an order id from the counter when the order has
none; commission = |quantity × price × rate|; mutates the order to Filled.
Returns the updated executor, the mutated order and the fill. -/
def OrderExecutor.execute_market_order (ex : OrderExecutor) (order : Order)
    (current_price : ℚ) (timestamp : ℕ) : OrderExecutor × Order × Fill :=
  let idp : String × OrderExecutor :=
    match order.order_id with
    | none => (toString ex.next_order_id,
               { ex with next_order_id := ex.next_order_id + 1 })
    | some oid => (oid, ex)
  let commission : ℚ := |(order.quantity : ℚ) * current_price * ex.commission_rate|
  let fill : Fill :=
    { order_id := idp.1, symbol := order.symbol, side := order.side,
      quantity := order.quantity, price := current_price,
      timestamp := timestamp, commission := commission }
  let order' : Order :=
    { order with
        order_id := some idp.1,
        status := .filled,
        filled_quantity := order.quantity,
        fill_price := some current_price,
        fill_timestamp := some timestamp }
  (idp.2, order', fill)

/-- OrderExecutor.execute_limit_order: fills (via market execution) at the
limit price when (Buy and current ≤ limit) or (Sell and current ≥ limit);
otherwise returns no fill. -/
def OrderExecutor.execute_limit_order (ex : OrderExecutor) (order : Order)
    (current_price : ℚ) (timestamp : ℕ) : OrderExecutor × Order × Option Fill :=
  match order.limit_price with
  | none => (ex, order, none)
  | some lp =>
    if (order.side = .buy ∧ current_price ≤ lp) ∨
       (order.side = .sell ∧ current_price ≥ lp) then
      let r := ex.execute_market_order order lp timestamp
      (r.1, r.2.1, some r.2.2)
    else
      (ex, order, none)

/-- OrderExecutor.can_execute: feasibility check by order type (the method
reads no executor state, so it is modelled as a pure function of the order
and the price). -/
def can_execute (order : Order) (current_price : ℚ) : Bool :=
  if order.order_type = .market then
    true
  else if order.order_type = .limit then
    match order.limit_price with
    | some lp =>
      if order.side = .buy then
        decide (current_price ≤ lp)
      else
        decide (current_price ≥ lp)
    | none => false
  else if order.order_type = .stop then
    match order.stop_price with
    | some sp =>
      if order.side = .buy then
        decide (current_price ≥ sp)
      else
        decide (current_price ≤ sp)
    | none => false
  else
    false

/-! Association-list model of Python dicts. -/

/-- Dict lookup (`d[k]` / `k in d`): first binding of the key, if any. -/
def dictLookup {α : Type} : List (String × α) → String → Option α
  | [], _ => none
  | (k', v) :: rest, k => if k' = k then some v else dictLookup rest k

/-- Dict assignment (`d[k] = v`): replaces the binding in place, or appends
a new binding at the end, as Python dicts do. -/
def dictSet {α : Type} : List (String × α) → String → α → List (String × α)
  | [], k, v => [(k, v)]
  | (k', v') :: rest, k, v =>
    if k' = k then (k, v) :: rest else (k', v') :: dictSet rest k v

/-- Dict deletion (`del d[k]`): removes the first binding of the key. -/
def dictErase {α : Type} : List (String × α) → String → List (String × α)
  | [], _ => []
  | (k', v') :: rest, k =>
    if k' = k then rest else (k', v') :: dictErase rest k

/-- One row of the equity curve (the dict appended by update_positions). -/
structure EquitySnapshot where
  timestamp : ℕ
  total_value : ℚ
  cash : ℚ
  position_value : ℚ
  realized_pnl : ℚ
  unrealized_pnl : ℚ
deriving DecidableEq, Repr

/-- The Portfolio ledger state (src/portfolio/portfolio.py). -/
structure Portfolio where
  initial_capital : ℚ
  cash : ℚ
  positions : List (String × ℤ)
  avg_prices : List (String × ℚ)
  executor : OrderExecutor
  total_value : ℚ
  equity_curve : List EquitySnapshot
  trades : List Fill
  realized_pnl : ℚ
  unrealized_pnl : ℚ
deriving DecidableEq, Repr

/-- Portfolio.__init__. -/
def Portfolio.init (initial_capital : ℚ) (commission_rate : ℚ) : Portfolio :=
  { initial_capital := initial_capital
    cash := initial_capital
    positions := []
    avg_prices := []
    executor := { commission_rate := commission_rate, next_order_id := 1 }
    total_value := initial_capital
    equity_curve := []
    trades := []
    realized_pnl := 0
    unrealized_pnl := 0 }

/-- Portfolio._process_buy: rejects (no mutation) when
quantity × price + commission exceeds cash; otherwise debits cash, updates
the position and the quantity-weighted average price, and appends the fill.
The source indexes `avg_prices[symbol]` directly when the position exists;
`getD 0` models that access (the two dicts share their key set). -/
def Portfolio._process_buy (p : Portfolio) (fill : Fill) : Bool × Portfolio :=
  let total_cost : ℚ := (fill.quantity : ℚ) * fill.price + fill.commission
  if total_cost > p.cash then
    (false, p)
  else
    let p := { p with cash := p.cash - total_cost }
    let p :=
      match dictLookup p.positions fill.symbol with
      | some current_qty =>
        let current_avg := (dictLookup p.avg_prices fill.symbol).getD 0
        let total_qty := current_qty + fill.quantity
        { p with
            avg_prices := dictSet p.avg_prices fill.symbol
              (((current_qty : ℚ) * current_avg + (fill.quantity : ℚ) * fill.price)
                / (total_qty : ℚ)),
            positions := dictSet p.positions fill.symbol total_qty }
      | none =>
        { p with
            positions := dictSet p.positions fill.symbol fill.quantity,
            avg_prices := dictSet p.avg_prices fill.symbol fill.price }
    (true, { p with trades := p.trades ++ [fill] })

/-- Portfolio._process_sell: rejects when the symbol has no position or the
held quantity is smaller; otherwise books realized PnL, credits the
proceeds, decrements the position, and deletes the position and its average
price when the remaining quantity is zero. -/
def Portfolio._process_sell (p : Portfolio) (fill : Fill) : Bool × Portfolio :=
  match dictLookup p.positions fill.symbol with
  | none => (false, p)
  | some held =>
    if held < fill.quantity then
      (false, p)
    else
      let avg_cost := (dictLookup p.avg_prices fill.symbol).getD 0
      let realized : ℚ := (fill.price - avg_cost) * (fill.quantity : ℚ) - fill.commission
      let proceeds : ℚ := (fill.quantity : ℚ) * fill.price - fill.commission
      let remaining := held - fill.quantity
      let p :=
        { p with
            realized_pnl := p.realized_pnl + realized,
            cash := p.cash + proceeds,
            positions :=
              if remaining = 0 then dictErase p.positions fill.symbol
              else dictSet p.positions fill.symbol remaining,
            avg_prices :=
              if remaining = 0 then dictErase p.avg_prices fill.symbol
              else p.avg_prices }
      (true, { p with trades := p.trades ++ [fill] })

/-- Portfolio.execute_order: market-executes the order (which mutates the
order and the executor's id counter unconditionally), then dispatches by
side. Returns the success flag, the updated portfolio and the mutated
order. In the source the fill of a market execution is never None, so the
dead `fill is None` branch has no counterpart here. -/
def Portfolio.execute_order (p : Portfolio) (order : Order)
    (current_price : ℚ) : Bool × Portfolio × Order :=
  let r := p.executor.execute_market_order order current_price order.timestamp
  let p := { p with executor := r.1 }
  let bp :=
    match r.2.2.side with
    | .buy => p._process_buy r.2.2
    | .sell => p._process_sell r.2.2
  (bp.1, bp.2, r.2.1)

/-- One iteration of the mark-to-market loop of update_positions: the pair
accumulates (position_value, unrealized); a position whose symbol has no
price contributes nothing. -/
def mtmStep (avg_prices : List (String × ℚ)) (priceOf : String → Option ℚ)
    (a : ℚ × ℚ) (sq : String × ℤ) : ℚ × ℚ :=
  match priceOf sq.1 with
  | some price =>
    let avg_cost := (dictLookup avg_prices sq.1).getD 0
    (a.1 + (sq.2 : ℚ) * price, a.2 + (price - avg_cost) * (sq.2 : ℚ))
  | none => a

/-- Portfolio.update_positions: marks open positions to market at `ts`.
`priceOf sym` is the Close price of `sym` at `ts` when the symbol is
present in `current_data` with `ts` in its index, and `none` otherwise;
positions without a price contribute zero. Appends exactly one snapshot. -/
def Portfolio.update_positions (p : Portfolio) (priceOf : String → Option ℚ)
    (ts : ℕ) : Portfolio :=
  let acc := p.positions.foldl (mtmStep p.avg_prices priceOf) (0, 0)
  let position_value := acc.1
  let unrealized := acc.2
  let total := p.cash + position_value
  { p with
      unrealized_pnl := unrealized,
      total_value := total,
      equity_curve := p.equity_curve ++
        [{ timestamp := ts, total_value := total, cash := p.cash,
           position_value := position_value, realized_pnl := p.realized_pnl,
           unrealized_pnl := unrealized }] }

/-! The backtest engine loop (src/engine/backtest.py). The strategy is
abstracted to the signal sequence it returns: `signals d` is the ordered
signal list the bound strategy yields at date `d`. -/

/-- One signal dict returned by a strategy; `order_type` defaults to
market, as in `signal.get('order_type', OrderType.MARKET)`. -/
structure Signal where
  symbol : String
  side : OrderSide
  quantity : ℤ
  order_type : OrderType := .market
deriving DecidableEq, Repr

/-- Market data held by the engine: per symbol, the (timestamp, Close)
series added by add_data. -/
def MarketData : Type := List (String × List (ℕ × ℚ))

/-- Close price of a symbol at a date, when the symbol is loaded and the
date is in its index. -/
def priceAt (data : MarketData) (symbol : String) (d : ℕ) : Option ℚ :=
  match data.find? (fun sd => sd.1 == symbol) with
  | none => none
  | some sd => (sd.2.find? (fun tp => tp.1 == d)).map (fun tp => tp.2)

/-- Insert a date into a sorted list of dates, keeping ascending order. -/
def insertDate (d : ℕ) : List ℕ → List ℕ
  | [] => [d]
  | e :: rest => if d ≤ e then d :: e :: rest else e :: insertDate d rest

/-- Ascending sorted list of the distinct dates of all loaded series
(`sorted(set().union(*...))`). -/
def allDates (data : MarketData) : List ℕ :=
  ((data.foldl (fun acc sd => acc ++ sd.2.map (fun tp => tp.1)) []).dedup).foldl
    (fun acc d => insertDate d acc) []

/-- BacktestEngine._execute_signal: skipped silently when the symbol has no
price at the current date; otherwise an Order is constructed (whose
validation can raise, aborting the run) and executed against the Close
price — the boolean result of execute_order is discarded by the engine, and
is returned here alongside the portfolio so that runs can be observed. -/
def execSignal (p : Portfolio) (priceOf : String → Option ℚ) (current_date : ℕ)
    (s : Signal) : Except String (Portfolio × Bool) :=
  match priceOf s.symbol with
  | none => .ok (p, true)
  | some current_price =>
    match mkOrder s.symbol s.order_type s.side s.quantity current_date none none with
    | .error e => .error e
    | .ok order =>
      let r := p.execute_order order current_price
      .ok (r.2.1, r.1)

/-- Processes the signal list of one date in order, threading the portfolio
and the conjunction of the execute_order results (`true` for skipped
signals). -/
def execSignals (priceOf : String → Option ℚ) (current_date : ℕ) :
    List Signal → Portfolio × Bool → Except String (Portfolio × Bool)
  | [], pb => .ok pb
  | s :: rest, pb =>
    match execSignal pb.1 priceOf current_date s with
    | .error e => .error e
    | .ok r => execSignals priceOf current_date rest (r.1, pb.2 && r.2)

/-- The per-date event loop of BacktestEngine.run: execute the date's
signals, then mark to market once. -/
def runDates (data : MarketData) (signals : ℕ → List Signal) :
    List ℕ → Portfolio × Bool → Except String (Portfolio × Bool)
  | [], pb => .ok pb
  | d :: rest, pb =>
    match execSignals (fun sym => priceAt data sym d) d (signals d) pb with
    | .error e => .error e
    | .ok r =>
      runDates data signals rest
        (r.1.update_positions (fun sym => priceAt data sym d) d, r.2)

/-- BacktestEngine.run with the strategy abstracted to its signal stream:
errors when no data was added, then iterates the sorted union of dates.
Returns the final portfolio and the conjunction of all execution results. -/
def runBacktest (data : MarketData) (signals : ℕ → List Signal)
    (initial_capital commission : ℚ) : Except String (Portfolio × Bool) :=
  if data.isEmpty then
    .error "No data loaded. Call add_data() first."
  else
    runDates data signals (allDates data) (Portfolio.init initial_capital commission, true)

/-- Whether a finished run raised no exception and every executed order
succeeded. -/
def allOk (r : Except String (Portfolio × Bool)) : Bool :=
  match r with
  | .ok pb => pb.2
  | .error _ => false

/-- Final total portfolio value of a run, when the run did not raise. -/
def finalTotalValue (r : Except String (Portfolio × Bool)) : Option ℚ :=
  match r with
  | .ok pb => some pb.1.total_value
  | .error _ => none

/-! Performance metrics (src/analysis/metrics.py). Metric inputs are the
`total_value` column of the equity curve (a list of rationals) and the
trade-history rows. IEEE NaN is `none`. -/

/-- Series.pct_change of the total_value column: same length as the input,
with NaN (`none`) in the first slot. -/
def pctChange : List ℚ → List (Option ℚ)
  | [] => []
  | x :: rest =>
    none :: (List.zip (x :: rest) rest).map (fun ab => some ((ab.2 - ab.1) / ab.1))

/-- Defined (non-NaN) entries of a float series, in order (pandas skipna). -/
def definedVals (xs : List (Option ℚ)) : List ℚ :=
  xs.filterMap id

/-- Series.mean with skipna: NaN when no entry is defined. -/
def seriesMean (xs : List (Option ℚ)) : Option ℚ :=
  let vs := definedVals xs
  if vs.length = 0 then none else some (vs.sum / (vs.length : ℚ))

/-- Sample variance (ddof = 1, skipna) of a float series — the square of
Series.std, which is NaN when fewer than 2 entries are defined. -/
def seriesVar (xs : List (Option ℚ)) : Option ℚ :=
  let vs := definedVals xs
  if vs.length < 2 then none
  else
    let m := vs.sum / (vs.length : ℚ)
    some ((vs.map (fun v => (v - m) ^ 2)).sum / ((vs.length : ℚ) - 1))

/-- PerformanceMetrics.sharpe_ratio over the total_value series. The guard
`np.isclose(std, 0, atol=1e-10) or std < 1e-10` is, for the nonnegative
std, exactly `std ≤ 1e-10`, i.e. variance ≤ 1e-20; when std is NaN both
comparisons are false and NaN propagates through the final expression. -/
noncomputable def sharpe (equity_curve : List ℚ) (risk_free_rate : ℚ)
    (periods_per_year : ℚ) : Option ℝ :=
  let returns := pctChange equity_curve
  if returns.length < 2 then
    some 0
  else
    let excess := returns.map (Option.map (fun r => r - risk_free_rate / periods_per_year))
    match seriesVar excess with
    | none => none
    | some var =>
      if var ≤ 1 / 10 ^ 20 then
        some 0
      else
        match seriesMean excess with
        | none => none
        | some m =>
          some (Real.sqrt (periods_per_year : ℝ) * ((m : ℝ) / Real.sqrt (var : ℝ)))

/-- One row of the trade-history DataFrame consumed by win_rate and
profit_factor (index = timestamp; side is the fill's side). -/
structure TradeRow where
  timestamp : ℕ
  symbol : String
  side : OrderSide
  quantity : ℤ
  price : ℚ
deriving DecidableEq, Repr

/-- Stable insertion into a list sorted by timestamp (new row goes after
equal timestamps). -/
def insertByTs (t : TradeRow) : List TradeRow → List TradeRow
  | [] => [t]
  | u :: rest =>
    if t.timestamp < u.timestamp then t :: u :: rest else u :: insertByTs t rest

/-- sort_index of a symbol's trade rows: stable ascending sort by
timestamp. -/
def sortByTs (ts : List TradeRow) : List TradeRow :=
  ts.foldl (fun acc t => insertByTs t acc) []

/-- Symbols in order of first appearance (`trades['symbol'].unique()`). -/
def uniqueSymbols : List TradeRow → List String → List String
  | [], _ => []
  | t :: rest, seen =>
    if t.symbol ∈ seen then uniqueSymbols rest seen
    else t.symbol :: uniqueSymbols rest (t.symbol :: seen)

/-- The inner while-loop of the FIFO matcher: consume the oldest buy lots
(price, quantity) with the sell, splitting the front lot when the sell
quantity is smaller. Returns the remaining lot queue and the pnl of each
(lot, consumed-quantity) round-trip, in match order. The loop exits when
the remaining sell quantity reaches zero or the queue empties; when the
front lot is only partly consumed the remaining sell quantity is zero, so
the loop ends on the next check. -/
def matchSell : List (ℚ × ℤ) → ℚ → ℤ → List (ℚ × ℤ) × List ℚ
  | [], _, _ => ([], [])
  | (bp, bq) :: rest, sell_price, remaining =>
    if remaining ≤ 0 then
      ((bp, bq) :: rest, [])
    else
      let matched := min bq remaining
      let pnl := (sell_price - bp) * (matched : ℚ)
      let bq' := bq - matched
      if bq' = 0 then
        let r := matchSell rest sell_price (remaining - matched)
        (r.1, pnl :: r.2)
      else
        ((bp, bq') :: rest, [pnl])

/-- Per-symbol FIFO round-trip pnls: buys push a (price, quantity) lot at
the back of the queue; sells consume from the front via `matchSell`. -/
def roundTrips : List TradeRow → List (ℚ × ℤ) → List ℚ
  | [], _ => []
  | t :: rest, queue =>
    match t.side with
    | .buy => roundTrips rest (queue ++ [(t.price, t.quantity)])
    | .sell =>
      let r := matchSell queue t.price t.quantity
      r.2 ++ roundTrips rest r.1

/-- All FIFO round-trip pnls of a trade history, grouped per symbol in
first-appearance order, each symbol's rows sorted by timestamp. -/
def allRoundTrips (trades : List TradeRow) : List ℚ :=
  (uniqueSymbols trades []).foldl
    (fun acc sym =>
      acc ++ roundTrips (sortByTs (trades.filter (fun t => t.symbol == sym))) [])
    []

/-- PerformanceMetrics.win_rate: winning round-trips (pnl > 0) over total
round-trips; 0 for an empty history or when no round-trip closed. -/
def win_rate (trades : List TradeRow) : ℚ :=
  if trades.length = 0 then 0
  else
    let pnls := allRoundTrips trades
    let total := pnls.length
    let winning := (pnls.filter (fun x => decide (0 < x))).length
    if total = 0 then 0 else (winning : ℚ) / (total : ℚ)

/-- PerformanceMetrics.profit_factor: gross profit over gross loss of the
FIFO round-trips; when gross loss is 0 it is gross profit if positive,
else 0. -/
def profit_factor (trades : List TradeRow) : ℚ :=
  if trades.length = 0 then 0
  else
    let pnls := allRoundTrips trades
    let gp :=
      pnls.foldl (fun g pnl => if 0 < pnl then g + pnl else g) 0
    let gl :=
      pnls.foldl (fun g pnl => if 0 < pnl then g else g + |pnl|) 0
    if gl = 0 then (if 0 < gp then gp else 0) else gp / gl

end TraderSim

namespace TraderSim

/-! Concrete fixtures used by witnesses and counterexamples. -/

/-- A market buy order for one share, used by witnesses. -/
def wBuyOrder : Order :=
  { symbol := "A", order_type := .market, side := .buy, quantity := 1, timestamp := 0 }

/-- A portfolio too poor to buy one share at price 100. -/
def wPoor : Portfolio := Portfolio.init 10 0

/-- A second poor portfolio, for the order-mutation witness. -/
def wPoor2 : Portfolio := Portfolio.init 5 0

/-- A limit buy order with limit price 10, for the limit-fill witness. -/
def wLimitOrder : Order :=
  { symbol := "A", order_type := .limit, side := .buy, quantity := 1,
    timestamp := 0, limit_price := some 10 }

/-- A buy-then-sell order sequence, for the position-invariant witness. -/
def wOps : List (Order × ℚ) :=
  [({ symbol := "A", order_type := .market, side := .buy, quantity := 2,
      timestamp := 0 }, 5),
   ({ symbol := "A", order_type := .market, side := .sell, quantity := 2,
      timestamp := 1 }, 6)]

/-- Two-day market data where the symbol's price halves, for the
commission counterexample. -/
def cexData : MarketData := [("A", [(0, 100), (1, 50)])]

/-- One buy signal on day 0, for the commission counterexample. -/
def cexSignals : ℕ → List Signal := fun d =>
  if d = 0 then [{ symbol := "A", side := .buy, quantity := 1 }] else []

/-- One-day market data, for the commission-monotonicity witness. -/
def witData : MarketData := [("A", [(0, 10)])]

/-- One affordable buy signal on day 0, for the commission-monotonicity
witness. -/
def witSignals : ℕ → List Signal := fun d =>
  if d = 0 then [{ symbol := "A", side := .buy, quantity := 1 }] else []

/-- The relation between the ledgers of two runs of the same signal
sequence with commission rates c1 ≤ c2: identical positions and average
prices, and the higher-commission ledger never ahead in cash or total
value. -/
def CommRel (c1 c2 : ℚ) (p1 p2 : Portfolio) : Prop :=
  p1.positions = p2.positions ∧
  p1.avg_prices = p2.avg_prices ∧
  p2.cash ≤ p1.cash ∧
  p2.total_value ≤ p1.total_value ∧
  p1.executor.commission_rate = c1 ∧
  p2.executor.commission_rate = c2

/-- Executing a list of (order, price) pairs in sequence against the
ledger, as the engine does, keeping only the portfolio. -/
def execOrders (p : Portfolio) (ops : List (Order × ℚ)) : Portfolio :=
  ops.foldl (fun p op => (p.execute_order op.1 op.2).2.1) p

/-- C5's invariant, as the claim states it: every stored position quantity
is positive (never negative, and a zero-quantity entry is never kept), and
the positions map and the average-price map hold exactly the same symbols
(an entry is removed from both precisely when its quantity reaches
zero). -/
def PosInv (p : Portfolio) : Prop :=
  (∀ s q, dictLookup p.positions s = some q → 0 < q) ∧
  (∀ s, dictLookup p.positions s = none ↔ dictLookup p.avg_prices s = none)

/-- Internal strengthening of `PosInv`: the two maps have no duplicate
keys (Python dicts cannot). -/
def mapsNodup (p : Portfolio) : Prop :=
  (p.positions.map Prod.fst).Nodup ∧ (p.avg_prices.map Prod.fst).Nodup

/-- C1 (code bug): a length-1 curve (0 defined returns) yields sharpe 0.0
as the claim says, but a length-2 curve (1 defined return, still fewer
than 2) yields NaN, not 0.0 — pct_change keeps the leading NaN, so the
`len(returns) < 2` guard sees length 2 and falls through to the NaN
standard deviation. -/
theorem sharpe_one_defined_return_nan :
    sharpe [100] (1/50) 252 = some 0 ∧ sharpe [100, 110] (1/50) 252 = none :=
  ⟨rfl, rfl⟩

/-- C2: FIFO lot matching on buys 10@10 and 10@12 followed by a sell
15@11 produces one winning round-trip (pnl 10) and one losing round-trip
(pnl −5), so win_rate = 0.5 and profit_factor = 10/5 = 2.0. -/
theorem win_rate_profit_factor_fifo_scenario :
    win_rate [⟨0, "A", .buy, 10, 10⟩, ⟨1, "A", .buy, 10, 12⟩, ⟨2, "A", .sell, 15, 11⟩] = 1/2 ∧
    profit_factor [⟨0, "A", .buy, 10, 10⟩, ⟨1, "A", .buy, 10, 12⟩, ⟨2, "A", .sell, 15, 11⟩] = 2 := by
  constructor <;>
    norm_num [win_rate, profit_factor, allRoundTrips, uniqueSymbols, sortByTs,
      insertByTs, roundTrips, matchSell]

/-- C9: can_execute returns false for every StopLimit order at every
price (even with both limit and stop prices set, no branch matches its
order type), and true for every Market order at every price. -/
theorem can_execute_stop_limit_false_market_true (o : Order) (cp : ℚ) :
    (o.order_type = .stop_limit → can_execute o cp = false) ∧
    (o.order_type = .market → can_execute o cp = true) := by
  constructor <;> intro h <;> simp [can_execute, h]

/-- C9 witness: a concrete stop-limit order with both prices is never
executable, a concrete market order always is. -/
theorem can_execute_witness :
    can_execute { symbol := "A", order_type := .stop_limit, side := .buy, quantity := 1,
                  timestamp := 0, limit_price := some 5, stop_price := some 6 } 3 = false ∧
    can_execute { symbol := "A", order_type := .market, side := .buy, quantity := 1,
                  timestamp := 0 } 3 = true :=
  ⟨(can_execute_stop_limit_false_market_true _ 3).1 rfl,
   (can_execute_stop_limit_false_market_true _ 3).2 rfl⟩

/-- C8: whenever execute_order rejects an order (returns false), the
order object has nonetheless been mutated to status Filled with the full
filled quantity and a fill price — market execution runs before the cash
and position checks. -/
theorem rejected_order_still_marked_filled (p : Portfolio) (o : Order) (cp : ℚ)
    (_h : (p.execute_order o cp).1 = false) :
    (p.execute_order o cp).2.2.status = .filled ∧
    (p.execute_order o cp).2.2.filled_quantity = o.quantity ∧
    (p.execute_order o cp).2.2.fill_price = some cp := by
  unfold Portfolio.execute_order OrderExecutor.execute_market_order
  cases o.order_id <;> simp


/-- C6: for a limit order carrying a limit price, execute_limit_order
returns a fill priced at the limit price exactly when (Buy and current ≤
limit) or (Sell and current ≥ limit); otherwise it returns none and no
state for re-evaluation exists (the executor keeps no resting orders). -/
theorem execute_limit_order_fill_iff (ex : OrderExecutor) (o : Order) (cp : ℚ)
    (ts : ℕ) (lp : ℚ) (h : o.limit_price = some lp) :
    ((∃ f, (ex.execute_limit_order o cp ts).2.2 = some f ∧ f.price = lp) ↔
      ((o.side = .buy ∧ cp ≤ lp) ∨ (o.side = .sell ∧ lp ≤ cp))) ∧
    (¬ ((o.side = .buy ∧ cp ≤ lp) ∨ (o.side = .sell ∧ lp ≤ cp)) →
      (ex.execute_limit_order o cp ts).2.2 = none) := by
  unfold OrderExecutor.execute_limit_order
  rw [h]
  simp only [ge_iff_le]
  by_cases hc : (o.side = .buy ∧ cp ≤ lp) ∨ (o.side = .sell ∧ lp ≤ cp)
  · refine ⟨?_, fun hn => absurd hc hn⟩
    rw [if_pos hc]
    refine iff_of_true ⟨_, rfl, ?_⟩ hc
    unfold OrderExecutor.execute_market_order
    cases o.order_id <;> simp
  · rw [if_neg hc]
    exact ⟨iff_of_false (by rintro ⟨f, hf, _⟩; simp at hf) hc, fun _ => rfl⟩


/-- C3: when execute_order fails it leaves every ledger field — cash,
positions, average prices, realized pnl and the trade log — unchanged;
and it does fail on a buy whose total cost exceeds cash and on a sell
with no or insufficient position. -/
theorem execute_order_failure_leaves_ledger_unchanged (p : Portfolio) (o : Order) (cp : ℚ) :
    ((p.execute_order o cp).1 = false →
      ((p.execute_order o cp).2.1.cash = p.cash ∧
       (p.execute_order o cp).2.1.positions = p.positions ∧
       (p.execute_order o cp).2.1.avg_prices = p.avg_prices ∧
       (p.execute_order o cp).2.1.realized_pnl = p.realized_pnl ∧
       (p.execute_order o cp).2.1.trades = p.trades)) ∧
    (((o.side = .buy ∧ p.cash < (o.quantity : ℚ) * cp + |(o.quantity : ℚ) * cp * p.executor.commission_rate|) ∨
      (o.side = .sell ∧ (dictLookup p.positions o.symbol = none ∨
        ∃ q, dictLookup p.positions o.symbol = some q ∧ q < o.quantity))) →
      (p.execute_order o cp).1 = false) := by
  obtain ⟨sym, ot, side, qty, ts, lp, sp, st, fq, fp, fts, oid⟩ := o
  constructor
  · intro h
    unfold Portfolio.execute_order OrderExecutor.execute_market_order
      Portfolio._process_buy Portfolio._process_sell at h ⊢
    cases oid <;> cases side <;> simp only [gt_iff_lt] at h ⊢
    case' none.buy | some.buy =>
      by_cases hcond :
        p.cash < (qty : ℚ) * cp + |(qty : ℚ) * cp * p.executor.commission_rate|
      case pos => rw [if_pos hcond]; simp
      case neg => rw [if_neg hcond] at h; simp at h
    case' none.sell | some.sell =>
      cases hl : dictLookup p.positions sym
      case' none => simp
      case' some =>
        rename_i held
        rw [hl] at h
        by_cases hlt : held < qty
        case pos => simp only [if_pos hlt]; simp
        case neg => simp only [if_neg hlt] at h; simp at h
  · rintro (⟨hside, hcond⟩ | ⟨hside, hcond⟩) <;> subst hside <;>
      unfold Portfolio.execute_order OrderExecutor.execute_market_order
        Portfolio._process_buy Portfolio._process_sell <;>
      cases oid <;> simp only [gt_iff_lt]
    case' mk.right.inl.intro.none | mk.right.inl.intro.some => rw [if_pos hcond]
    case' mk.right.inr.intro.none | mk.right.inr.intro.some =>
      rcases hcond with hnone | ⟨q, hq, hlt⟩
      · rw [hnone]
      · rw [hq]; simp only [if_pos hlt]
/-- Auxiliary: the first component of the mark-to-market fold is the initial
value plus the sum of quantity × price over the positions that have a
price. -/
theorem foldl_mtmStep_fst (avg : List (String × ℚ)) (priceOf : String → Option ℚ) :
    ∀ (l : List (String × ℤ)) (a b : ℚ),
      (l.foldl (mtmStep avg priceOf) (a, b)).1 =
        a + (l.filterMap (fun sq => (priceOf sq.1).map (fun pr => (sq.2 : ℚ) * pr))).sum
  | [], a, b => by simp
  | sq :: l, a, b => by
    cases hp : priceOf sq.1 <;>
      simp only [List.foldl_cons, List.filterMap_cons, mtmStep, hp, List.sum_cons,
        Option.map_some', Option.map_none'] <;>
      rw [foldl_mtmStep_fst avg priceOf l] <;> ring

/-- C4: every snapshot appended by update_positions satisfies
total_value = cash + position_value, with position_value the sum of
quantity × close over the open positions that have a price at the
timestamp. -/
theorem update_positions_snapshot_accounting (p : Portfolio)
    (priceOf : String → Option ℚ) (ts : ℕ) :
    ∃ s, (p.update_positions priceOf ts).equity_curve = p.equity_curve ++ [s] ∧
      s.total_value = s.cash + s.position_value ∧
      s.cash = p.cash ∧
      s.position_value =
        (p.positions.filterMap
          (fun sq => (priceOf sq.1).map (fun pr => (sq.2 : ℚ) * pr))).sum := by
  unfold Portfolio.update_positions
  refine ⟨_, rfl, rfl, rfl, ?_⟩
  rw [foldl_mtmStep_fst]
  exact zero_add _

/-- C3 witness: a buy of 1 share at price 100 against 10 of cash fails and
leaves the ledger unchanged. -/
theorem execute_order_failure_witness :
    (wPoor.execute_order wBuyOrder 100).1 = false ∧
    (wPoor.execute_order wBuyOrder 100).2.1.cash = wPoor.cash ∧
    (wPoor.execute_order wBuyOrder 100).2.1.positions = wPoor.positions :=
  have hfail : (wPoor.execute_order wBuyOrder 100).1 = false :=
    (execute_order_failure_leaves_ledger_unchanged wPoor wBuyOrder 100).2
      (Or.inl ⟨rfl, by norm_num [wPoor, wBuyOrder, Portfolio.init]⟩)
  ⟨hfail,
   ((execute_order_failure_leaves_ledger_unchanged wPoor wBuyOrder 100).1 hfail).1,
   ((execute_order_failure_leaves_ledger_unchanged wPoor wBuyOrder 100).1 hfail).2.1⟩

/-- C8 witness: the rejected buy of wPoor2 still mutates the order to
Filled with the fill fields set. -/
theorem rejected_order_witness :
    (wPoor2.execute_order wBuyOrder 100).2.2.status = .filled ∧
    (wPoor2.execute_order wBuyOrder 100).2.2.filled_quantity = wBuyOrder.quantity ∧
    (wPoor2.execute_order wBuyOrder 100).2.2.fill_price = some 100 :=
  rejected_order_still_marked_filled wPoor2 wBuyOrder 100
    (by norm_num [wPoor2, wBuyOrder, Portfolio.init, Portfolio.execute_order,
      OrderExecutor.execute_market_order, Portfolio._process_buy])

/-! Lemmas about the association-list dict model. -/

theorem dictLookup_dictSet_self {α : Type} (k : String) (v : α) :
    ∀ d : List (String × α), dictLookup (dictSet d k v) k = some v
  | [] => by simp [dictSet, dictLookup]
  | (k', v') :: rest => by
    by_cases h : k' = k
    · simp [dictSet, dictLookup, h]
    · simp [dictSet, dictLookup, h, dictLookup_dictSet_self k v rest]

theorem dictLookup_dictSet_ne {α : Type} (k : String) (v : α) (k' : String) (h : k ≠ k') :
    ∀ d : List (String × α), dictLookup (dictSet d k v) k' = dictLookup d k'
  | [] => by simp [dictSet, dictLookup, h]
  | (k2, v2) :: rest => by
    by_cases hk : k2 = k
    · subst hk; simp [dictSet, dictLookup, h]
    · simp [dictSet, dictLookup, hk, dictLookup_dictSet_ne k v k' h rest]

theorem dictLookup_dictErase_ne {α : Type} (k k' : String) (h : k ≠ k') :
    ∀ d : List (String × α), dictLookup (dictErase d k) k' = dictLookup d k'
  | [] => rfl
  | (k2, v2) :: rest => by
    by_cases hk : k2 = k
    · subst hk; simp [dictErase, dictLookup, h]
    · simp [dictErase, dictLookup, hk, dictLookup_dictErase_ne k k' h rest]

theorem dictLookup_eq_none_of_not_mem {α : Type} (k : String) :
    ∀ d : List (String × α), k ∉ d.map Prod.fst → dictLookup d k = none
  | [], _ => rfl
  | (k2, v2) :: rest, h => by
    simp only [List.map_cons, List.mem_cons, not_or] at h
    simp [dictLookup, Ne.symm h.1, dictLookup_eq_none_of_not_mem k rest h.2]

theorem dictLookup_dictErase_self {α : Type} (k : String) :
    ∀ d : List (String × α), (d.map Prod.fst).Nodup →
      dictLookup (dictErase d k) k = none
  | [], _ => rfl
  | (k2, v2) :: rest, h => by
    simp only [List.map_cons, List.nodup_cons] at h
    by_cases hk : k2 = k
    · subst hk; simpa [dictErase] using dictLookup_eq_none_of_not_mem k2 rest h.1
    · simp [dictErase, dictLookup, hk, dictLookup_dictErase_self k rest h.2]

theorem mem_keys_dictSet {α : Type} (k : String) (v : α) (x : String) :
    ∀ d : List (String × α),
      (x ∈ (dictSet d k v).map Prod.fst ↔ x = k ∨ x ∈ d.map Prod.fst)
  | [] => by simp [dictSet]
  | (k2, v2) :: rest => by
    by_cases hk : k2 = k
    · subst hk; simp [dictSet]
    · simp [dictSet, hk, mem_keys_dictSet k v x rest]; tauto

theorem nodup_keys_dictSet {α : Type} (k : String) (v : α) :
    ∀ d : List (String × α), (d.map Prod.fst).Nodup →
      ((dictSet d k v).map Prod.fst).Nodup
  | [], _ => by simp [dictSet]
  | (k2, v2) :: rest, h => by
    simp only [List.map_cons, List.nodup_cons] at h
    by_cases hk : k2 = k
    · simp only [dictSet]
      rw [if_pos hk]
      subst hk
      simp only [List.map_cons, List.nodup_cons]
      exact h
    · simp only [dictSet, if_neg hk, List.map_cons, List.nodup_cons]
      refine ⟨?_, nodup_keys_dictSet k v rest h.2⟩
      intro hmem
      rcases (mem_keys_dictSet k v k2 rest).mp hmem with h1 | h1
      · exact hk h1
      · exact h.1 h1

theorem keys_dictErase_subset {α : Type} (k : String) :
    ∀ d : List (String × α), (dictErase d k).map Prod.fst ⊆ d.map Prod.fst
  | [] => by simp [dictErase]
  | (k2, v2) :: rest => by
    by_cases hk : k2 = k
    · simp only [dictErase]
      rw [if_pos hk]
      intro x hx
      simp only [List.map_cons, List.mem_cons]
      exact Or.inr hx
    · simp only [dictErase, if_neg hk, List.map_cons]
      exact List.cons_subset_cons _ (keys_dictErase_subset k rest)

theorem nodup_keys_dictErase {α : Type} (k : String) :
    ∀ d : List (String × α), (d.map Prod.fst).Nodup →
      ((dictErase d k).map Prod.fst).Nodup
  | [], _ => by simp [dictErase]
  | (k2, v2) :: rest, h => by
    simp only [List.map_cons, List.nodup_cons] at h
    by_cases hk : k2 = k
    · subst hk; simpa [dictErase] using h.2
    · simp only [dictErase, if_neg hk, List.map_cons, List.nodup_cons]
      exact ⟨fun hmem => h.1 (keys_dictErase_subset k rest hmem),
             nodup_keys_dictErase k rest h.2⟩

/-- Auxiliary: a single execute_order call preserves the position
invariant and the no-duplicate-keys property, for orders with positive
quantity (the only ones that order validation lets through). -/
theorem execute_order_preserves_posinv (p : Portfolio) (o : Order) (cp : ℚ)
    (hq : 0 < o.quantity) (hinv : PosInv p) (hnd : mapsNodup p) :
    PosInv (p.execute_order o cp).2.1 ∧ mapsNodup (p.execute_order o cp).2.1 := by
  obtain ⟨sym, ot, side, qty, ts, lp, sp, st, fq, fp, fts, oid⟩ := o
  simp only at hq
  unfold Portfolio.execute_order OrderExecutor.execute_market_order
    Portfolio._process_buy Portfolio._process_sell
  cases oid <;> cases side <;> simp only [gt_iff_lt]
  case' none.buy | some.buy =>
    by_cases hcond : p.cash < (qty : ℚ) * cp + |(qty : ℚ) * cp * p.executor.commission_rate|
    case pos => rw [if_pos hcond]; exact ⟨hinv, hnd⟩
    case neg =>
      rw [if_neg hcond]
      cases hl : dictLookup p.positions sym
      case' some =>
        rename_i held
        refine ⟨⟨fun s q' h' => ?_, fun s => ?_⟩,
                nodup_keys_dictSet _ _ _ hnd.1, nodup_keys_dictSet _ _ _ hnd.2⟩
        · by_cases hs : sym = s
          · subst hs
            rw [dictLookup_dictSet_self] at h'
            cases h'
            have := hinv.1 sym held hl
            omega
          · rw [dictLookup_dictSet_ne _ _ _ hs] at h'
            exact hinv.1 s q' h'
        · by_cases hs : sym = s
          · subst hs
            rw [dictLookup_dictSet_self, dictLookup_dictSet_self]
            simp
          · rw [dictLookup_dictSet_ne _ _ _ hs, dictLookup_dictSet_ne _ _ _ hs]
            exact hinv.2 s
      case' none =>
        refine ⟨⟨fun s q' h' => ?_, fun s => ?_⟩,
                nodup_keys_dictSet _ _ _ hnd.1, nodup_keys_dictSet _ _ _ hnd.2⟩
        · by_cases hs : sym = s
          · subst hs
            rw [dictLookup_dictSet_self] at h'
            cases h'
            omega
          · rw [dictLookup_dictSet_ne _ _ _ hs] at h'
            exact hinv.1 s q' h'
        · by_cases hs : sym = s
          · subst hs
            rw [dictLookup_dictSet_self, dictLookup_dictSet_self]
            simp
          · rw [dictLookup_dictSet_ne _ _ _ hs, dictLookup_dictSet_ne _ _ _ hs]
            exact hinv.2 s
  case' none.sell | some.sell =>
    cases hl : dictLookup p.positions sym
    case' none => exact ⟨hinv, hnd⟩
    case' some =>
      rename_i held
      by_cases hlt : held < qty
      case pos => simp only [if_pos hlt]; exact ⟨hinv, hnd⟩
      case neg =>
        simp only [if_neg hlt]
        by_cases hrem : held - qty = 0
        case pos =>
          simp only [if_pos hrem]
          refine ⟨⟨fun s q' h' => ?_, fun s => ?_⟩,
                  nodup_keys_dictErase _ _ hnd.1, nodup_keys_dictErase _ _ hnd.2⟩
          · by_cases hs : sym = s
            · subst hs
              rw [dictLookup_dictErase_self _ _ hnd.1] at h'
              cases h'
            · rw [dictLookup_dictErase_ne _ _ hs] at h'
              exact hinv.1 s q' h'
          · by_cases hs : sym = s
            · subst hs
              rw [dictLookup_dictErase_self _ _ hnd.1,
                  dictLookup_dictErase_self _ _ hnd.2]
              exact iff_of_true rfl rfl
            · rw [dictLookup_dictErase_ne _ _ hs, dictLookup_dictErase_ne _ _ hs]
              exact hinv.2 s
        case neg =>
          simp only [if_neg hrem]
          refine ⟨⟨fun s q' h' => ?_, fun s => ?_⟩,
                  nodup_keys_dictSet _ _ _ hnd.1, hnd.2⟩
          · by_cases hs : sym = s
            · subst hs
              rw [dictLookup_dictSet_self] at h'
              cases h'
              omega
            · rw [dictLookup_dictSet_ne _ _ _ hs] at h'
              exact hinv.1 s q' h'
          · by_cases hs : sym = s
            · subst hs
              rw [dictLookup_dictSet_self]
              have hpos : dictLookup p.positions sym = some held := hl
              have havg : ¬ dictLookup p.avg_prices sym = none := by
                intro hn
                have := (hinv.2 sym).mpr hn
                rw [hpos] at this
                cases this
              simp [havg]
            · rw [dictLookup_dictSet_ne _ _ _ hs]
              exact hinv.2 s

/-- Auxiliary: the invariant is preserved along any executed order
sequence. -/
theorem execOrders_posinv_aux :
    ∀ (ops : List (Order × ℚ)) (p : Portfolio),
      PosInv p → mapsNodup p → (∀ x ∈ ops, 0 < x.1.quantity) →
      PosInv (execOrders p ops) ∧ mapsNodup (execOrders p ops)
  | [], p, hi, hn, _ => ⟨hi, hn⟩
  | op :: ops, p, hi, hn, h => by
    have step := execute_order_preserves_posinv p op.1 op.2
      (h op (by simp)) hi hn
    exact execOrders_posinv_aux ops _ step.1 step.2
      (fun x hx => h x (by simp [hx]))

/-- C5: along every prefix of a sequence of executed orders with positive
quantities, every held position quantity stays positive (so never
negative), and a symbol's position entry and its average price are present
in the maps precisely together — both removed exactly when the quantity
reaches zero. -/
theorem positions_never_negative (ic cr : ℚ) (ops : List (Order × ℚ))
    (h : ∀ x ∈ ops, 0 < x.1.quantity) (n : ℕ) :
    PosInv (execOrders (Portfolio.init ic cr) (ops.take n)) := by
  refine (execOrders_posinv_aux (ops.take n) _ ?_ ?_ ?_).1
  · exact ⟨fun s q h' => (by cases h'), fun s => iff_of_true rfl rfl⟩
  · exact ⟨List.nodup_nil, List.nodup_nil⟩
  · intro x hx
    exact h x (List.take_subset n ops hx)

/-- C5 witness: the invariant holds after executing the concrete
buy-then-sell sequence. -/
theorem positions_never_negative_witness :
    PosInv (execOrders (Portfolio.init 1000 0) (wOps.take 2)) :=
  positions_never_negative 1000 0 wOps (by norm_num [wOps]) 2

/-- C6 witness: a buy limit order with limit 10 at current price 5 fills
at the limit price 10. -/
theorem execute_limit_order_witness :
    ∃ f, (OrderExecutor.execute_limit_order ⟨0, 1⟩ wLimitOrder 5 0).2.2 = some f ∧
      f.price = 10 :=
  (execute_limit_order_fill_iff ⟨0, 1⟩ wLimitOrder 5 0 10 rfl).1.mpr
    (Or.inl ⟨rfl, by norm_num⟩)

/-- C10: a signal with non-positive quantity for a symbol that has a price
at the current date makes the Order constructor raise ValueError, and the
error aborts the whole run (second conjunct: a concrete one-date backtest
whose only signal has quantity 0 returns the ValueError instead of an
equity curve). -/
theorem nonpositive_quantity_signal_aborts_run (p : Portfolio)
    (priceOf : String → Option ℚ) (d : ℕ) (s : Signal) (pr : ℚ)
    (hpr : priceOf s.symbol = some pr) (hq : s.quantity ≤ 0) :
    execSignal p priceOf d s = .error "Order quantity must be positive" ∧
    runBacktest [("A", [(0, 100)])]
        (fun _ => [{ symbol := "A", side := .buy, quantity := 0 }]) 100000 0 =
      .error "Order quantity must be positive" := by
  constructor
  · simp only [execSignal, hpr, mkOrder, if_pos hq]
  · rfl

/-- C10 witness: the abort at a concrete portfolio, price function and
zero-quantity signal. -/
theorem nonpositive_quantity_signal_witness :
    execSignal (Portfolio.init 100000 0) (fun _ => some 100) 0
        { symbol := "A", side := .buy, quantity := 0 } =
      .error "Order quantity must be positive" :=
  (nonpositive_quantity_signal_aborts_run (Portfolio.init 100000 0)
    (fun _ => some 100) 0 { symbol := "A", side := .buy, quantity := 0 } 100
    rfl (by norm_num)).1

/-- C7 counterexample: with data cexData and the single buy signal, the
zero-commission run ends at total value 50 while the 50%-commission run
(whose buy is rejected for insufficient cash, keeping the cash while the
price halves) ends at 100 — a higher commission rate yielding a strictly
greater final total value. -/
theorem commission_monotonicity_cex :
    finalTotalValue (runBacktest cexData cexSignals 100 0) = some 50 ∧
    finalTotalValue (runBacktest cexData cexSignals 100 (1/2)) = some 100 ∧
    ((50 : ℚ) < 100) :=
  ⟨by with_unfolding_all rfl, by with_unfolding_all rfl, by norm_num⟩

/-- Auxiliary: one successful execute_order on each side of two CommRel
runs preserves the relation. -/
theorem execute_order_comm_mono (c1 c2 : ℚ) (h0 : 0 ≤ c1) (h12 : c1 ≤ c2)
    (p1 p2 : Portfolio) (o : Order) (cp : ℚ) (hrel : CommRel c1 c2 p1 p2)
    (h1 : (p1.execute_order o cp).1 = true)
    (h2 : (p2.execute_order o cp).1 = true) :
    CommRel c1 c2 (p1.execute_order o cp).2.1 (p2.execute_order o cp).2.1 := by
  obtain ⟨hpos, havg, hcash, htv, hr1, hr2⟩ := hrel
  obtain ⟨sym, ot, side, qty, ts, lp, sp, st, fq, fp, fts, oid⟩ := o
  have hc2 : 0 ≤ c2 := h0.trans h12
  have hm : |(qty : ℚ) * cp * c1| ≤ |(qty : ℚ) * cp * c2| := by
    rw [abs_mul ((qty : ℚ) * cp) c1, abs_mul ((qty : ℚ) * cp) c2,
      abs_of_nonneg h0, abs_of_nonneg hc2]
    exact mul_le_mul_of_nonneg_left h12 (abs_nonneg _)
  unfold Portfolio.execute_order OrderExecutor.execute_market_order
    Portfolio._process_buy Portfolio._process_sell at h1 h2 ⊢
  rw [hpos, havg, hr1] at h1 ⊢
  rw [hr2] at h2 ⊢
  cases oid <;> cases side <;> simp only [gt_iff_lt] at h1 h2 ⊢
  case' none.buy | some.buy =>
    by_cases hcond1 : p1.cash < (qty : ℚ) * cp + |(qty : ℚ) * cp * c1|
    case pos => rw [if_pos hcond1] at h1; cases h1
    case neg =>
      by_cases hcond2 : p2.cash < (qty : ℚ) * cp + |(qty : ℚ) * cp * c2|
      case pos => rw [if_pos hcond2] at h2; cases h2
      case neg =>
        rw [if_neg hcond1]
        rw [if_neg hcond2]
        cases hl : dictLookup p2.positions sym <;>
          exact ⟨rfl, rfl, by dsimp only; linarith, htv,
            by simp [hr1], by simp [hr2]⟩
  case' none.sell | some.sell =>
    cases hl : dictLookup p2.positions sym
    case' none =>
      rw [hl] at h1
      simp at h1
    case' some =>
      rename_i held
      rw [hl] at h1 h2
      by_cases hlt : held < qty
      case pos =>
        simp only [if_pos hlt] at h1
        simp at h1
      case neg =>
        simp only [if_neg hlt] at h1 h2 ⊢
        exact ⟨rfl, rfl, by dsimp only; linarith, htv,
          by simp [hr1], by simp [hr2]⟩


/-- Auxiliary: left conjunct of a true Bool conjunction. -/
theorem bool_and_left {a b : Bool} (h : (a && b) = true) : a = true := by
  cases a <;> simp_all

/-- Auxiliary: right conjunct of a true Bool conjunction. -/
theorem bool_and_right {a b : Bool} (h : (a && b) = true) : b = true := by
  cases a <;> simp_all

/-- Auxiliary: the success accumulator threaded by execSignals only ever
decreases, so a run that ends all-ok started all-ok. -/
theorem execSignals_acc_true (priceOf : String → Option ℚ) (d : ℕ) :
    ∀ (sigs : List Signal) (p : Portfolio) (b : Bool) (r : Portfolio × Bool),
      execSignals priceOf d sigs (p, b) = .ok r → r.2 = true → b = true
  | [], p, b, r => by
    intro h hr
    simp only [execSignals] at h
    cases h
    exact hr
  | s :: sigs, p, b, r => by
    intro h hr
    simp only [execSignals] at h
    cases hs : execSignal p priceOf d s with
    | error e => rw [hs] at h; cases h
    | ok z =>
      rw [hs] at h
      have := execSignals_acc_true priceOf d sigs z.1 (b && z.2) r h hr
      exact bool_and_left this

/-- Auxiliary: processing one date's signals in two CommRel ledgers, with
every execution succeeding in both, preserves the relation. -/
theorem execSignals_comm_mono (c1 c2 : ℚ) (h0 : 0 ≤ c1) (h12 : c1 ≤ c2)
    (priceOf : String → Option ℚ) (d : ℕ) :
    ∀ (sigs : List Signal) (p1 p2 : Portfolio) (b1 b2 : Bool)
      (r1 r2 : Portfolio × Bool),
      CommRel c1 c2 p1 p2 →
      execSignals priceOf d sigs (p1, b1) = .ok r1 → r1.2 = true →
      execSignals priceOf d sigs (p2, b2) = .ok r2 → r2.2 = true →
      CommRel c1 c2 r1.1 r2.1
  | [], p1, p2, b1, b2, r1, r2 => by
    intro hrel h1 hr1 h2 hr2
    simp only [execSignals] at h1 h2
    cases h1
    cases h2
    exact hrel
  | s :: sigs, p1, p2, b1, b2, r1, r2 => by
    intro hrel h1 hr1 h2 hr2
    simp only [execSignals, execSignal] at h1 h2
    cases hp : priceOf s.symbol with
    | none =>
      rw [hp] at h1 h2
      exact execSignals_comm_mono c1 c2 h0 h12 priceOf d sigs p1 p2 _ _ r1 r2
        hrel h1 hr1 h2 hr2
    | some pr =>
      rw [hp] at h1 h2
      cases hm : mkOrder s.symbol s.order_type s.side s.quantity d none none with
      | error e => rw [hm] at h1; cases h1
      | ok o =>
        rw [hm] at h1 h2
        have hs1 : (p1.execute_order o pr).1 = true :=
          bool_and_right (execSignals_acc_true priceOf d sigs _ _ r1 h1 hr1)
        have hs2 : (p2.execute_order o pr).1 = true :=
          bool_and_right (execSignals_acc_true priceOf d sigs _ _ r2 h2 hr2)
        exact execSignals_comm_mono c1 c2 h0 h12 priceOf d sigs _ _ _ _ r1 r2
          (execute_order_comm_mono c1 c2 h0 h12 p1 p2 o pr hrel hs1 hs2) h1 hr1 h2 hr2

/-- Auxiliary: mark-to-market preserves the relation (equal positions give
equal position values, so the cash gap carries to the total value). -/
theorem update_positions_comm_mono (c1 c2 : ℚ) (p1 p2 : Portfolio)
    (priceOf : String → Option ℚ) (ts : ℕ) (hrel : CommRel c1 c2 p1 p2) :
    CommRel c1 c2 (p1.update_positions priceOf ts) (p2.update_positions priceOf ts) := by
  obtain ⟨hpos, havg, hcash, htv, hr1, hr2⟩ := hrel
  unfold Portfolio.update_positions
  dsimp only
  rw [hpos, havg]
  exact ⟨rfl, rfl, hcash, add_le_add_right hcash _, hr1, hr2⟩

/-- Auxiliary: the success accumulator threaded by runDates only ever
decreases. -/
theorem runDates_acc_true (data : MarketData) (signals : ℕ → List Signal) :
    ∀ (dates : List ℕ) (p : Portfolio) (b : Bool) (r : Portfolio × Bool),
      runDates data signals dates (p, b) = .ok r → r.2 = true → b = true
  | [], p, b, r => by
    intro h hr
    simp only [runDates] at h
    cases h
    exact hr
  | d :: dates, p, b, r => by
    intro h hr
    simp only [runDates] at h
    cases he : execSignals (fun sym => priceAt data sym d) d (signals d) (p, b) with
    | error e => rw [he] at h; cases h
    | ok z =>
      rw [he] at h
      have hz := runDates_acc_true data signals dates _ _ r h hr
      exact execSignals_acc_true _ d (signals d) p b z he hz

/-- Auxiliary: the whole dated loop preserves the relation when both runs
end all-ok. -/
theorem runDates_comm_mono (c1 c2 : ℚ) (h0 : 0 ≤ c1) (h12 : c1 ≤ c2)
    (data : MarketData) (signals : ℕ → List Signal) :
    ∀ (dates : List ℕ) (p1 p2 : Portfolio) (b1 b2 : Bool)
      (r1 r2 : Portfolio × Bool),
      CommRel c1 c2 p1 p2 →
      runDates data signals dates (p1, b1) = .ok r1 → r1.2 = true →
      runDates data signals dates (p2, b2) = .ok r2 → r2.2 = true →
      CommRel c1 c2 r1.1 r2.1
  | [], p1, p2, b1, b2, r1, r2 => by
    intro hrel h1 hr1 h2 hr2
    simp only [runDates] at h1 h2
    cases h1
    cases h2
    exact hrel
  | d :: dates, p1, p2, b1, b2, r1, r2 => by
    intro hrel h1 hr1 h2 hr2
    simp only [runDates] at h1 h2
    cases he1 : execSignals (fun sym => priceAt data sym d) d (signals d) (p1, b1) with
    | error e => rw [he1] at h1; cases h1
    | ok z1 =>
      cases he2 : execSignals (fun sym => priceAt data sym d) d (signals d) (p2, b2) with
      | error e => rw [he2] at h2; cases h2
      | ok z2 =>
        rw [he1] at h1
        rw [he2] at h2
        have hz1 : z1.2 = true := runDates_acc_true data signals dates _ _ r1 h1 hr1
        have hz2 : z2.2 = true := runDates_acc_true data signals dates _ _ r2 h2 hr2
        have hstep := execSignals_comm_mono c1 c2 h0 h12 _ d (signals d)
          p1 p2 b1 b2 z1 z2 hrel he1 hz1 he2 hz2
        exact runDates_comm_mono c1 c2 h0 h12 data signals dates _ _ _ _ r1 r2
          (update_positions_comm_mono c1 c2 z1.1 z2.1 _ d hstep) h1 hr1 h2 hr2

/-- C7 (amended): for a fixed data set and signal stream, if both runs end
with every order execution succeeding (allOk), then the run with the
higher commission rate never ends with a strictly greater total value. -/
theorem commission_monotonicity_no_rejection (data : MarketData)
    (signals : ℕ → List Signal) (ic c1 c2 : ℚ) (h0 : 0 ≤ c1) (h12 : c1 ≤ c2)
    (ha : allOk (runBacktest data signals ic c1) = true)
    (hb : allOk (runBacktest data signals ic c2) = true) :
    (finalTotalValue (runBacktest data signals ic c2)).getD 0 ≤
      (finalTotalValue (runBacktest data signals ic c1)).getD 0 := by
  unfold runBacktest at ha hb ⊢
  by_cases hd : data.isEmpty
  · rw [if_pos hd] at ha
    simp [allOk] at ha
  · rw [if_neg hd] at ha hb ⊢
    cases h1 : runDates data signals (allDates data) (Portfolio.init ic c1, true) with
    | error e => rw [h1] at ha; simp [allOk] at ha
    | ok r1 =>
      cases h2 : runDates data signals (allDates data) (Portfolio.init ic c2, true) with
      | error e => rw [h2] at hb; simp [allOk] at hb
      | ok r2 =>
        rw [h1] at ha
        rw [h2] at hb
        simp only [allOk] at ha hb
        have hrel := runDates_comm_mono c1 c2 h0 h12 data signals (allDates data)
          (Portfolio.init ic c1) (Portfolio.init ic c2) true true r1 r2
          ⟨rfl, rfl, le_refl _, le_refl _, rfl, rfl⟩ h1 ha h2 hb
        simp only [if_neg hd, finalTotalValue, Option.getD_some]
        exact hrel.2.2.2.1

/-- C7 witness: a one-day run with one affordable buy at rates 0 and 1/100,
both all-ok, instantiating the amended monotonicity. -/
theorem commission_monotonicity_witness :
    (finalTotalValue (runBacktest witData witSignals 1000 (1/100))).getD 0 ≤
      (finalTotalValue (runBacktest witData witSignals 1000 0)).getD 0 :=
  commission_monotonicity_no_rejection witData witSignals 1000 0 (1/100)
    (by norm_num) (by norm_num)
    (by with_unfolding_all rfl) (by with_unfolding_all rfl)

end TraderSim
